import Mathlib

/-!
Verification development for the caldav-mcp repository.

Strings of the Python source are modelled as `List Char`.  The functions
below are shallow embeddings of:

* `CalDAVAccount._normalize_url` (src/caldav_mcp/client.py), together with
  the path-extraction behaviour of Python's `urllib.parse.urlparse` on
  `http`/`https` URLs (scheme split at the first colon, netloc up to the
  first of `/`, `?`, `#`, fragment/query removal, and the params split at
  the first `;` of the last path segment);
* `find_account_for_calendar`, `list_events_tool`, `create_event_tool`,
  `delete_event_tool` (src/caldav_mcp/tools/events.py);
* `CalDAVAccount.get_calendar_by_url`, `CalDAVAccount.list_events`,
  `CalDAVAccount.create_event`, `CalDAVAccount.delete_event`
  (src/caldav_mcp/client.py).

Naive datetimes are modelled as microsecond counts (`Int`), dates as day
ordinals; external effects (the CalDAV server's responses, the platform
date parser, UUID generation) are passed in as explicit arguments.
-/

/-- The character prefix tested by `url.startswith("http://")`. -/
def httpMark : List Char := ['h', 't', 't', 'p', ':', '/', '/']

/-- The character prefix tested by `url.startswith("https://")`. -/
def httpsMark : List Char := ['h', 't', 't', 'p', 's', ':', '/', '/']

/-- Models `url.startswith("http://") or url.startswith("https://")`. -/
def startsWithHttp (s : List Char) : Bool :=
  httpMark.isPrefixOf s || httpsMark.isPrefixOf s

/-- A character ending the netloc in `urlparse` (first of `/`, `?`, `#`). -/
def isNetlocDelim (c : Char) : Bool := c == '/' || c == '?' || c == '#'

/-- A character starting the query or fragment part in `urlparse`. -/
def isQueryOrFrag (c : Char) : Bool := c == '?' || c == '#'

/-- Everything after the `://` scheme marker (`urlparse` splits the scheme
at the first colon; the two following slashes open the netloc). -/
def schemeRest (s : List Char) : List Char :=
  (s.dropWhile (fun c => !(c == ':'))).drop 3

/-- The remainder after the netloc: drop netloc characters up to the first
of `/`, `?`, `#`. -/
def afterNetloc (s : List Char) : List Char :=
  (schemeRest s).dropWhile (fun c => !(isNetlocDelim c))

/-- The raw path: the remainder cut at the first `?` or `#` (fragment and
query removal of `urlparse`). -/
def rawPath (s : List Char) : List Char :=
  (afterNetloc s).takeWhile (fun c => !(isQueryOrFrag c))

/-- The params split of `urlparse` restricted to the segment after the last
slash: keep everything up to the last `/`, then cut that final segment at
its first `;`. -/
def stripParamsAfterLastSlash : List Char → List Char
  | [] => []
  | c :: t =>
    if c == '/' && !(t.contains '/') then
      c :: t.takeWhile (fun x => !(x == ';'))
    else
      c :: stripParamsAfterLastSlash t

/-- `urlparse`'s `_splitparams`: when the string has a slash the `;` is only
searched after the last slash, otherwise from the start. -/
def splitOffParams (l : List Char) : List Char :=
  if l.contains '/' then stripParamsAfterLastSlash l
  else l.takeWhile (fun x => !(x == ';'))

/-- The `path` attribute of `urlparse(url)` for an `http(s)` URL. -/
def urlparse_path (s : List Char) : List Char :=
  splitOffParams (rawPath s)

/-- Embedding of `CalDAVAccount._normalize_url`: for an `http(s)`-prefixed
URL return `urlparse(url).path`, otherwise return the input unchanged. -/
def normalize_url (s : List Char) : List Char :=
  if startsWithHttp s then urlparse_path s else s

/-! Data model: `CalendarInfo` and `CalDAVAccount` from client.py.  The
`connected` flag models `self.client` and `self.principal` both being set
(which `connect` establishes together); the `calendars` list is the cache
populated by `connect` in server order. -/

structure CalendarInfo where
  cal_name : List Char
  url : List Char
  account_name : List Char
  deriving DecidableEq

structure CalDAVAccount where
  account_name : List Char
  base_url : List Char
  connected : Bool
  calendars : List CalendarInfo
  deriving DecidableEq

/-- The comparison done in both the resolver and `get_calendar_by_url`:
the calendar entry's normalized URL equals the normalized input URL. -/
def calendarMatches (normalized : List Char) (c : CalendarInfo) : Bool :=
  normalize_url c.url == normalized

/-- Inner loop of `find_account_for_calendar`: does any cached calendar of
the account match the normalized URL? -/
def accountMatches (normalized : List Char) (a : CalDAVAccount) : Bool :=
  a.calendars.any (calendarMatches normalized)

/-- Account scan of `find_account_for_calendar`: first account, in
registration order, with a matching calendar. -/
def findAccountGo (normalized : List Char) :
    List CalDAVAccount → Option CalDAVAccount
  | [] => none
  | a :: rest =>
    if accountMatches normalized a then some a
    else findAccountGo normalized rest

/-- Embedding of `find_account_for_calendar` (tools/events.py): normalize
the input once, then scan accounts in order and, within each account, its
cached calendars in server order. -/
def find_account_for_calendar (accounts : List CalDAVAccount)
    (calendar_url : List Char) : Option CalDAVAccount :=
  findAccountGo (normalize_url calendar_url) accounts

/-- Embedding of `CalDAVAccount.get_calendar_by_url`: `None` when client or
principal is unset; otherwise the first cached calendar whose normalized
URL matches, identified by the URL handed to `self.client.calendar`. -/
def get_calendar_by_url (a : CalDAVAccount) (url : List Char) :
    Option (List Char) :=
  if a.connected then
    match a.calendars.find? (calendarMatches (normalize_url url)) with
    | some c => some c.url
    | none => none
  else none

/-- A demo account whose only calendar has the relative URL `/cal/x`. -/
def acctA : CalDAVAccount :=
  { account_name := ("alice").toList
    base_url := ("https://a.example").toList
    connected := true
    calendars :=
      [{ cal_name := ("X").toList
         url := ("/cal/x").toList
         account_name := ("alice").toList }] }

/-- A demo account whose only calendar has an absolute URL that normalizes
to the same `/cal/x` path as `acctA`'s calendar. -/
def acctB : CalDAVAccount :=
  { account_name := ("bob").toList
    base_url := ("https://b.example").toList
    connected := true
    calendars :=
      [{ cal_name := ("XB").toList
         url := ("https://b.example/cal/x").toList
         account_name := ("bob").toList }] }

/-! Event model.  `ICalTime` models the `.dt` value of a DTSTART/DTEND
property: either a plain `date` (day ordinal) or a `datetime` (microsecond
count).  `VComponent` models one component yielded by `ical.walk()`;
`dtstart`/`dtend` are `none` when the property is absent, in which case the
source's `component.get("dtstart").dt` raises and the per-entry handler
skips the rest of that entry.  `CalendarEntry` models one object returned
by the server: `malformed` when `Calendar.from_ical(event.data)` raises. -/

def usecPerDay : Int := 86400000000

inductive ICalTime where
  | date (d : Int)
  | dateTime (t : Int)
  deriving DecidableEq

/-- Models the convert-date-to-datetime branch of `list_events`:
`datetime.combine(value, datetime.min.time())` for a plain date, the value
itself when it already is a datetime. -/
def toTimestamp : ICalTime → Int
  | ICalTime.date d => d * usecPerDay
  | ICalTime.dateTime t => t

structure VComponent where
  cname : List Char
  uid : List Char
  summary : List Char
  dtstart : Option ICalTime
  dtend : Option ICalTime
  description : Option (List Char)
  location : Option (List Char)
  deriving DecidableEq

inductive CalendarEntry where
  | malformed
  | parsed (components : List VComponent)
  deriving DecidableEq

structure EventInfo where
  uid : List Char
  summary : List Char
  start : Int
  stop : Int
  calendar_url : List Char
  description : Option (List Char)
  location : Option (List Char)
  deriving DecidableEq

def veventName : List Char := ("VEVENT").toList

/-- Models `str(x) if x else None`: Python truthiness maps an absent or
empty text property to `None`. -/
def pyOptText (o : Option (List Char)) : Option (List Char) :=
  match o with
  | none => none
  | some d => if d = [] then none else some d

/-- The `EventInfo(...)` record built for one VEVENT component in
`CalDAVAccount.list_events`. -/
def mkEventInfo (calendar_url : List Char) (comp : VComponent)
    (s e : ICalTime) : EventInfo :=
  { uid := comp.uid
    summary := comp.summary
    start := toTimestamp s
    stop := toTimestamp e
    calendar_url := calendar_url
    description := pyOptText comp.description
    location := pyOptText comp.location }

/-- The walk over one parsed entry's components: VEVENT components yield an
`EventInfo`; a VEVENT with a missing DTSTART or DTEND raises inside the
per-entry `try`, aborting the rest of this entry (earlier appends are
kept); non-VEVENT components are passed over. -/
def extractEvents (calendar_url : List Char) :
    List VComponent → List EventInfo
  | [] => []
  | comp :: rest =>
    if comp.cname = veventName then
      match comp.dtstart, comp.dtend with
      | some s, some e =>
          mkEventInfo calendar_url comp s e
            :: extractEvents calendar_url rest
      | some _, none => []
      | none, _ => []
    else extractEvents calendar_url rest

/-- Events contributed by one server entry: a `from_ical` failure is logged
and skipped. -/
def entryEvents (calendar_url : List Char) : CalendarEntry → List EventInfo
  | CalendarEntry.malformed => []
  | CalendarEntry.parsed comps => extractEvents calendar_url comps

/-- The event loop of `CalDAVAccount.list_events` over the entries returned
by `calendar.date_search`. -/
def processEntries (calendar_url : List Char) :
    List CalendarEntry → List EventInfo
  | [] => []
  | e :: rest =>
      entryEvents calendar_url e ++ processEntries calendar_url rest

/-! Account-level operations.  The entries returned by the server
(`calendar.date_search` in `list_events`, `calendar.events()` in
`delete_event`) are explicit arguments; the start/end range of
`list_events` is forwarded to the server query only. -/

inductive CalError where
  | calendarNotFound (url : List Char)
  | uidNotFound (uid : List Char)
  deriving DecidableEq

/-- Embedding of `CalDAVAccount.list_events`: raise `Calendar not found`
when `get_calendar_by_url` yields nothing, else build `EventInfo` records
from the entries the server returned for the range. -/
def account_list_events (a : CalDAVAccount) (calendar_url : List Char)
    (start stop : Int) (entries : List CalendarEntry) :
    Except CalError (List EventInfo) :=
  match get_calendar_by_url a calendar_url with
  | none => Except.error (CalError.calendarNotFound calendar_url)
  | some _ =>
    let _ := start
    let _ := stop
    Except.ok (processEntries calendar_url entries)

/-- Embedding of `CalDAVAccount.create_event`: raise `Calendar not found`
when unresolved, else build and save the event and return the freshly
generated UID (`uuid.uuid4()`ness is supplied by the caller). -/
def account_create_event (a : CalDAVAccount) (calendar_url : List Char)
    (summary : List Char) (start stop : Int)
    (description location : Option (List Char)) (uid : List Char) :
    Except CalError (List Char) :=
  match get_calendar_by_url a calendar_url with
  | none => Except.error (CalError.calendarNotFound calendar_url)
  | some _ =>
    let _ := summary
    let _ := start
    let _ := stop
    let _ := description
    let _ := location
    Except.ok uid

/-- Does one server entry contain a VEVENT whose UID (via
`str(component.get("uid", ""))`) equals the requested UID?  A `from_ical`
failure is logged and the entry skipped. -/
def entryHasUid (uid : List Char) : CalendarEntry → Bool
  | CalendarEntry.malformed => false
  | CalendarEntry.parsed comps =>
      comps.any (fun c => c.cname = veventName ∧ c.uid = uid)

/-- The scan of `CalDAVAccount.delete_event`: index of the first entry
holding a matching VEVENT (the entry on which `event.delete()` is called),
`none` when the whole calendar has been scanned without a match. -/
def deleteScan (uid : List Char) : List CalendarEntry → Option Nat
  | [] => none
  | e :: rest =>
    if entryHasUid uid e then some 0
    else (deleteScan uid rest).map (fun n => n + 1)

/-- Embedding of `CalDAVAccount.delete_event`: resolve the calendar, scan
its entries in order, delete the first match and return immediately, or
raise `Event with UID ... not found in calendar`. -/
def account_delete_event (a : CalDAVAccount) (calendar_url uid : List Char)
    (entries : List CalendarEntry) : Except CalError Nat :=
  match get_calendar_by_url a calendar_url with
  | none => Except.error (CalError.calendarNotFound calendar_url)
  | some _ =>
    match deleteScan uid entries with
    | some i => Except.ok i
    | none => Except.error (CalError.uidNotFound uid)

/-! Tool layer (tools/events.py).  `parse` is the platform date parser
`datetime.fromisoformat`, passed in as an oracle returning `none` when it
raises `ValueError`. -/

inductive ToolError where
  | valueError (msg : List Char)
  | dateFormatError (arg : List Char)
  | calError (e : CalError)
  deriving DecidableEq

instance exceptDecidableEq {ε α : Type} [DecidableEq ε] [DecidableEq α] :
    DecidableEq (Except ε α) := fun x y =>
  match x, y with
  | Except.error a, Except.error b =>
    decidable_of_iff (a = b)
      ⟨fun h => by rw [h], fun h => by injection h⟩
  | Except.error _, Except.ok _ => isFalse (fun h => by injection h)
  | Except.ok _, Except.error _ => isFalse (fun h => by injection h)
  | Except.ok a, Except.ok b =>
    decidable_of_iff (a = b)
      ⟨fun h => by rw [h], fun h => by injection h⟩

def plusUtcOffset : List Char := ("+00:00").toList

/-- Models Python `str.replace` for a single-character needle: every
occurrence of `old` is replaced by `new`. -/
def replaceChar (old : Char) (new : List Char) : List Char → List Char
  | [] => []
  | c :: rest =>
    if c = old then new ++ replaceChar old new rest
    else c :: replaceChar old new rest

/-- The string actually handed to `datetime.fromisoformat`:
`s.replace("Z", "+00:00")`. -/
def replacedDateArg (s : List Char) : List Char :=
  replaceChar 'Z' plusUtcOffset s

/-- All cached calendar URLs across accounts, in account registration
order, as enumerated by the generator in `list_events_tool`'s error
message. -/
def allCalendarUrls : List CalDAVAccount → List (List Char)
  | [] => []
  | a :: rest => a.calendars.map (fun c => c.url) ++ allCalendarUrls rest

/-- Models `", ".join(...)`. -/
def joinComma : List (List Char) → List Char
  | [] => []
  | [u] => u
  | u :: rest => u ++ (", ").toList ++ joinComma rest

/-- The `ValueError` message of `list_events_tool` on resolution failure:
it appends the list of known calendar URLs. -/
def noAccountMsgListEvents (calendar_url : List Char)
    (accounts : List CalDAVAccount) : List Char :=
  ("No account found for calendar URL: ").toList ++ calendar_url
    ++ (". Available URLs: ").toList ++ joinComma (allCalendarUrls accounts)

/-- The `ValueError` message of `create_event_tool` and
`delete_event_tool` on resolution failure: no URL list is appended. -/
def noAccountMsgPlain (calendar_url : List Char) : List Char :=
  ("No account found for calendar URL: ").toList ++ calendar_url

/-- The date-parsing block of `list_events_tool` (lines 57-63): parse
`start`, then either parse the provided `end` or default the range end to
`start_dt + timedelta(days=30)` when the `end` argument is absent or empty
(Python truthiness of `if end:`). -/
def listEventsRange (parse : List Char → Option Int) (start : List Char)
    (endArg : Option (List Char)) : Except ToolError (Int × Int) :=
  match parse (replacedDateArg start) with
  | none => Except.error (ToolError.dateFormatError (replacedDateArg start))
  | some start_dt =>
    match endArg with
    | none => Except.ok (start_dt, start_dt + 30 * usecPerDay)
    | some e =>
      if e = [] then Except.ok (start_dt, start_dt + 30 * usecPerDay)
      else
        match parse (replacedDateArg e) with
        | some d => Except.ok (start_dt, d)
        | none => Except.error (ToolError.dateFormatError (replacedDateArg e))

/-- Embedding of `list_events_tool`: resolve the account (error message
with available URLs on failure), compute the queried range, then
delegate. -/
def list_events_tool (parse : List Char → Option Int)
    (accounts : List CalDAVAccount) (calendar_url : List Char)
    (start : List Char) (endArg : Option (List Char))
    (entries : List CalendarEntry) : Except ToolError (List EventInfo) :=
  match find_account_for_calendar accounts calendar_url with
  | none =>
    Except.error
      (ToolError.valueError (noAccountMsgListEvents calendar_url accounts))
  | some account =>
    match listEventsRange parse start endArg with
    | Except.error err => Except.error err
    | Except.ok (start_dt, end_dt) =>
      match account_list_events account calendar_url start_dt end_dt
          entries with
      | Except.error e => Except.error (ToolError.calError e)
      | Except.ok evs => Except.ok evs

/-- Embedding of `create_event_tool`: resolve the account (plain error
message on failure), parse both dates, then delegate. -/
def create_event_tool (parse : List Char → Option Int)
    (accounts : List CalDAVAccount) (calendar_url summary : List Char)
    (start stop : List Char) (description location : Option (List Char))
    (uid : List Char) : Except ToolError (List Char) :=
  match find_account_for_calendar accounts calendar_url with
  | none =>
    Except.error (ToolError.valueError (noAccountMsgPlain calendar_url))
  | some account =>
    match parse (replacedDateArg start) with
    | none => Except.error (ToolError.dateFormatError (replacedDateArg start))
    | some start_dt =>
      match parse (replacedDateArg stop) with
      | none => Except.error (ToolError.dateFormatError (replacedDateArg stop))
      | some end_dt =>
        match account_create_event account calendar_url summary start_dt
            end_dt description location uid with
        | Except.error e => Except.error (ToolError.calError e)
        | Except.ok u => Except.ok u

/-- Embedding of `delete_event_tool`: resolve the account (plain error
message on failure), then delegate and report success. -/
def delete_event_tool (accounts : List CalDAVAccount)
    (calendar_url uid : List Char) (entries : List CalendarEntry) :
    Except ToolError (List Char) :=
  match find_account_for_calendar accounts calendar_url with
  | none =>
    Except.error (ToolError.valueError (noAccountMsgPlain calendar_url))
  | some account =>
    match account_delete_event account calendar_url uid entries with
    | Except.error e => Except.error (ToolError.calError e)
    | Except.ok _ =>
      Except.ok
        (("Event ").toList ++ uid ++ (" deleted successfully").toList)

/-- A parser stand-in used by concrete witnesses only. -/
def demoParse (s : List Char) : Option Int :=
  if s = ("2025-11-27T09:00:00+00:00").toList then some 1764234000000000
  else if s = ("2025-11-27T09:00:00").toList then some 1764234000000000
  else if s = ("2025-11-28T10:00:00").toList then some 1764324000000000
  else none

/-- A demo account with one calendar at `/cal/work/`, used by concrete
witnesses and counterexamples only. -/
def acctW : CalDAVAccount :=
  { account_name := ("work").toList
    base_url := ("https://w.example").toList
    connected := true
    calendars :=
      [{ cal_name := ("Work").toList
         url := ("/cal/work/").toList
         account_name := ("work").toList }] }

/-- A demo VEVENT component whose DTSTART is a plain date and whose DTEND
carries a time, used by concrete witnesses only. -/
def demoComp : VComponent :=
  { cname := veventName
    uid := ("ev-1").toList
    summary := ("Standup").toList
    dtstart := some (ICalTime.date 20419)
    dtend := some (ICalTime.dateTime 1764234900000000)
    description := none
    location := none }

/-- Demo server entries: one malformed entry followed by one parsed entry
holding `demoComp`. -/
def demoEntries : List CalendarEntry :=
  [CalendarEntry.malformed, CalendarEntry.parsed [demoComp]]

/-! Theorems.  Shape lemmas about the normalizer first, shared by several
claims. -/

theorem dropWhile_shape (p : Char → Bool) (l : List Char) :
    l.dropWhile p = [] ∨ ∃ c t, l.dropWhile p = c :: t ∧ p c = false := by
  induction l with
  | nil => exact Or.inl rfl
  | cons c t ih =>
    by_cases h : p c
    · rw [List.dropWhile_cons_of_pos h]; exact ih
    · rw [List.dropWhile_cons_of_neg h]
      exact Or.inr ⟨c, t, rfl, by simpa using h⟩

theorem rawPath_shape (s : List Char) :
    rawPath s = [] ∨ ∃ t, rawPath s = '/' :: t := by
  unfold rawPath afterNetloc
  rcases dropWhile_shape (fun c => !(isNetlocDelim c)) (schemeRest s) with h | ⟨c, t, h, hc⟩
  · rw [h]; exact Or.inl rfl
  · rw [h]
    have hdelim : isNetlocDelim c = true := by
      revert hc; simp
    have : c = '/' ∨ c = '?' ∨ c = '#' := by
      revert hdelim; unfold isNetlocDelim
      rcases eq_or_ne c '/' with h1 | h1
      · exact fun _ => Or.inl h1
      rcases eq_or_ne c '?' with h2 | h2
      · exact fun _ => Or.inr (Or.inl h2)
      rcases eq_or_ne c '#' with h3 | h3
      · exact fun _ => Or.inr (Or.inr h3)
      intro hh
      simp [h1, h2, h3] at hh
    rcases this with h1 | h1 | h1
    · subst h1
      rw [List.takeWhile_cons_of_pos (by decide)]
      exact Or.inr ⟨_, rfl⟩
    · subst h1
      rw [List.takeWhile_cons_of_neg (by decide)]
      exact Or.inl rfl
    · subst h1
      rw [List.takeWhile_cons_of_neg (by decide)]
      exact Or.inl rfl

theorem splitOffParams_nil : splitOffParams [] = [] := rfl

theorem splitOffParams_slash (t : List Char) :
    ∃ u, splitOffParams ('/' :: t) = '/' :: u := by
  unfold splitOffParams
  rw [if_pos (by simp)]
  unfold stripParamsAfterLastSlash
  by_cases h : (('/' : Char) == '/') && !(t.contains '/')
  · rw [if_pos h]; exact ⟨_, rfl⟩
  · rw [if_neg h]; exact ⟨_, rfl⟩

theorem urlparse_path_shape (s : List Char) :
    urlparse_path s = [] ∨ ∃ t, urlparse_path s = '/' :: t := by
  unfold urlparse_path
  rcases rawPath_shape s with h | ⟨t, h⟩
  · rw [h]; exact Or.inl splitOffParams_nil
  · rw [h]; exact Or.inr (splitOffParams_slash t)

theorem startsWithHttp_nil : startsWithHttp [] = false := by decide

theorem startsWithHttp_slash (t : List Char) :
    startsWithHttp ('/' :: t) = false := by
  have h1 : (('h' : Char) == '/') = false := by decide
  simp [startsWithHttp, httpMark, httpsMark, List.isPrefixOf, h1]

theorem takeWhile_all (p : Char → Bool) (l : List Char)
    (h : ∀ c ∈ l, p c = true) : l.takeWhile p = l := by
  induction l with
  | nil => rfl
  | cons c t ih =>
    rw [List.takeWhile_cons_of_pos (h c (by simp)),
      ih (fun x hx => h x (List.mem_cons_of_mem _ hx))]

theorem strip_no_semi (l : List Char) (h : ∀ c ∈ l, ¬ c = ';') :
    stripParamsAfterLastSlash l = l := by
  induction l with
  | nil => rfl
  | cons c t ih =>
    unfold stripParamsAfterLastSlash
    by_cases hc : (c == '/') && !(t.contains '/')
    · rw [if_pos hc]
      congr 1
      exact takeWhile_all _ t
        (fun x hx => by simpa using h x (List.mem_cons_of_mem _ hx))
    · rw [if_neg hc]
      congr 1
      exact ih (fun x hx => h x (List.mem_cons_of_mem _ hx))

theorem splitOffParams_no_semi (l : List Char) (h : ∀ c ∈ l, ¬ c = ';') :
    splitOffParams l = l := by
  unfold splitOffParams
  by_cases hc : l.contains '/'
  · rw [if_pos hc]; exact strip_no_semi l h
  · rw [if_neg hc]; exact takeWhile_all _ l (fun x hx => by simpa using h x hx)

theorem schemeRest_http (x : List Char) : schemeRest (httpMark ++ x) = x := rfl

theorem schemeRest_https (x : List Char) : schemeRest (httpsMark ++ x) = x := rfl

theorem startsWithHttp_httpMark (x : List Char) :
    startsWithHttp (httpMark ++ x) = true := by simp [startsWithHttp]

theorem startsWithHttp_httpsMark (x : List Char) :
    startsWithHttp (httpsMark ++ x) = true := by simp [startsWithHttp]

theorem urlparse_path_of_clean (host p : List Char)
    (hhost : ∀ c ∈ host, isNetlocDelim c = false)
    (hpath : ∀ c ∈ p, isQueryOrFrag c = false ∧ c ≠ ';')
    (hhead : p = [] ∨ ∃ t, p = '/' :: t)
    (x : List Char) (hx : schemeRest x = host ++ p) : urlparse_path x = p := by
  have hafter : afterNetloc x = p := by
    unfold afterNetloc
    rw [hx, List.dropWhile_append_of_pos
      (by intro a ha; simpa using hhost a ha)]
    rcases hhead with h0 | ⟨t, ht⟩
    · rw [h0]; rfl
    · rw [ht, List.dropWhile_cons_of_neg (by decide)]
  have hraw : rawPath x = p := by
    unfold rawPath
    rw [hafter]
    exact takeWhile_all _ p (fun c hc => by simpa using (hpath c hc).1)
  unfold urlparse_path
  rw [hraw]
  exact splitOffParams_no_semi p (fun c hc => (hpath c hc).2)

/-- C2: for `http(s)`-prefixed inputs `_normalize_url` returns exactly the
URL's path component (scheme, host and port stripped; leading slash and any
trailing slash kept verbatim, with no trailing-slash canonicalization); for
inputs without such a scheme prefix it returns the input unchanged; hence an
absolute URL and a relative URL sharing the same path normalize equally. -/
theorem c2_normalize_path_component (host p : List Char)
    (hhost : ∀ c ∈ host, isNetlocDelim c = false)
    (hpath : ∀ c ∈ p, isQueryOrFrag c = false ∧ c ≠ ';')
    (hhead : p = [] ∨ ∃ t, p = '/' :: t) :
    normalize_url (httpMark ++ host ++ p) = p
    ∧ normalize_url (httpsMark ++ host ++ p) = p
    ∧ (∀ s, startsWithHttp s = false → normalize_url s = s)
    ∧ normalize_url (("https://host/path/a").toList)
        = normalize_url (("/path/a").toList) := by
  refine ⟨?_, ?_, ?_, by decide⟩
  · unfold normalize_url
    rw [List.append_assoc, startsWithHttp_httpMark, if_pos rfl]
    exact urlparse_path_of_clean host p hhost hpath hhead _ (schemeRest_http _)
  · unfold normalize_url
    rw [List.append_assoc, startsWithHttp_httpsMark, if_pos rfl]
    exact urlparse_path_of_clean host p hhost hpath hhead _ (schemeRest_https _)
  · intro s hs
    unfold normalize_url
    rw [hs]
    simp

/-- Witness for C2 at a concrete host and path. -/
theorem c2_normalize_path_component_witness :
    normalize_url (httpsMark ++ (("cal.example.com:8443").toList)
      ++ (("/dav/work/").toList)) = ("/dav/work/").toList :=
  (c2_normalize_path_component (("cal.example.com:8443").toList)
    (("/dav/work/").toList) (by decide) (by decide)
    (Or.inr ⟨("dav/work/").toList, by decide⟩)).2.1

/-- C4: `_normalize_url` is idempotent: normalizing an already-normalized
URL returns it unchanged, for every input string. -/
theorem c4_normalize_idempotent (u : List Char) :
    normalize_url (normalize_url u) = normalize_url u := by
  unfold normalize_url
  by_cases h : startsWithHttp u
  · rw [if_pos h]
    rcases urlparse_path_shape u with hp | ⟨t, hp⟩
    · rw [hp, startsWithHttp_nil]; simp
    · rw [hp, startsWithHttp_slash]; simp
  · rw [if_neg h, if_neg h]

theorem findAccountGo_none (normalized : List Char)
    (accounts : List CalDAVAccount) :
    findAccountGo normalized accounts = none
      ↔ ∀ a ∈ accounts, accountMatches normalized a = false := by
  induction accounts with
  | nil => simp [findAccountGo]
  | cons a rest ih =>
    unfold findAccountGo
    by_cases h : accountMatches normalized a
    · simp [h]
    · simp only [if_neg h, ih]
      constructor
      · intro hall x hx
        rcases List.mem_cons.mp hx with hx | hx
        · subst hx; simpa using h
        · exact hall x hx
      · intro hall x hx
        exact hall x (List.mem_cons_of_mem _ hx)

theorem findAccountGo_first (normalized : List Char)
    (pre post : List CalDAVAccount) (a : CalDAVAccount)
    (hpre : ∀ x ∈ pre, accountMatches normalized x = false)
    (ha : accountMatches normalized a = true) :
    findAccountGo normalized (pre ++ a :: post) = some a := by
  induction pre with
  | nil => simp [findAccountGo, ha]
  | cons x rest ih =>
    have hx : accountMatches normalized x = false := hpre x (by simp)
    simp only [List.cons_append]
    unfold findAccountGo
    rw [if_neg (by simp [hx])]
    exact ih (fun y hy => hpre y (List.mem_cons_of_mem _ hy))

theorem findAccountGo_some (normalized : List Char)
    (accounts : List CalDAVAccount) (a : CalDAVAccount)
    (h : findAccountGo normalized accounts = some a) :
    a ∈ accounts ∧ accountMatches normalized a = true := by
  induction accounts with
  | nil => simp [findAccountGo] at h
  | cons x rest ih =>
    unfold findAccountGo at h
    by_cases hx : accountMatches normalized x
    · rw [if_pos hx] at h
      cases h
      exact ⟨by simp, hx⟩
    · rw [if_neg hx] at h
      rcases ih h with ⟨hm, hmm⟩
      exact ⟨List.mem_cons_of_mem _ hm, hmm⟩

/-- C1: the resolver normalizes the input once and returns the first
account, in registration order, one of whose cached calendars has a
normalized URL equal to the normalized input; it returns `none` exactly
when no calendar of any account matches; so with duplicated normalized
URLs across accounts the first-registered account wins. -/
theorem c1_resolver_first_match (accounts : List CalDAVAccount)
    (url : List Char) :
    (find_account_for_calendar accounts url = none
      ↔ ∀ a ∈ accounts, ∀ c ∈ a.calendars,
          normalize_url c.url ≠ normalize_url url)
    ∧ (∀ (pre post : List CalDAVAccount) (a : CalDAVAccount),
        accounts = pre ++ a :: post →
        (∀ x ∈ pre, ∀ c ∈ x.calendars,
          normalize_url c.url ≠ normalize_url url) →
        (∃ c ∈ a.calendars, normalize_url c.url = normalize_url url) →
        find_account_for_calendar accounts url = some a)
    ∧ (∀ a, find_account_for_calendar accounts url = some a →
        a ∈ accounts
        ∧ ∃ c ∈ a.calendars, normalize_url c.url = normalize_url url) := by
  have hmatch : ∀ x : CalDAVAccount,
      accountMatches (normalize_url url) x = true
        ↔ ∃ c ∈ x.calendars, normalize_url c.url = normalize_url url := by
    intro x
    simp [accountMatches, calendarMatches, List.any_eq_true]
  refine ⟨?_, ?_, ?_⟩
  · rw [find_account_for_calendar, findAccountGo_none]
    constructor
    · intro h a ha c hc
      have hf := h a ha
      intro heq
      have : accountMatches (normalize_url url) a = true :=
        (hmatch a).mpr ⟨c, hc, heq⟩
      rw [hf] at this
      exact Bool.false_ne_true this
    · intro h a ha
      by_contra hne
      have : accountMatches (normalize_url url) a = true := by
        revert hne
        cases accountMatches (normalize_url url) a <;> simp
      rcases (hmatch a).mp this with ⟨c, hc, heq⟩
      exact h a ha c hc heq
  · intro pre post a hacc hpre ha
    rw [hacc, find_account_for_calendar]
    refine findAccountGo_first _ pre post a ?_ ((hmatch a).mpr ha)
    intro x hx
    by_contra hne
    have : accountMatches (normalize_url url) x = true := by
      revert hne
      cases accountMatches (normalize_url url) x <;> simp
    rcases (hmatch x).mp this with ⟨c, hc, heq⟩
    exact hpre x hx c hc heq
  · intro a h
    rcases findAccountGo_some _ _ _ h with ⟨hm, hmm⟩
    exact ⟨hm, (hmatch a).mp hmm⟩

/-- Witness for C1: two accounts expose calendars whose URLs normalize
identically, and the first-registered account is returned. -/
theorem c1_resolver_first_match_witness :
    find_account_for_calendar [acctA, acctB] (("/cal/x").toList)
      = some acctA :=
  (c1_resolver_first_match [acctA, acctB] (("/cal/x").toList)).2.1
    [] [acctB] acctA rfl (by intro x hx; simp at hx)
    ⟨{ cal_name := ("X").toList
       url := ("/cal/x").toList
       account_name := ("alice").toList }, by decide, by decide⟩

theorem processEntries_append (url : List Char)
    (l1 l2 : List CalendarEntry) :
    processEntries url (l1 ++ l2)
      = processEntries url l1 ++ processEntries url l2 := by
  induction l1 with
  | nil => simp [processEntries]
  | cons e rest ih =>
    simp only [List.cons_append, processEntries, List.append_eq]
    rw [ih, List.append_assoc]

theorem extractEvents_no_vevent (url : List Char) (comps : List VComponent)
    (h : ∀ c ∈ comps, c.cname ≠ veventName) :
    extractEvents url comps = [] := by
  induction comps with
  | nil => rfl
  | cons c rest ih =>
    unfold extractEvents
    rw [if_neg (h c (by simp))]
    exact ih (fun x hx => h x (List.mem_cons_of_mem _ hx))

/-- C7: a server entry whose data fails to parse, or whose components hold
no VEVENT, contributes nothing to the listing and does not abort it: the
result is exactly the listing of the remaining entries, and
`CalDAVAccount.list_events` still returns it without raising. -/
theorem c7_malformed_entry_skipped (url : List Char)
    (es1 es2 : List CalendarEntry) (comps : List VComponent) :
    processEntries url (es1 ++ CalendarEntry.malformed :: es2)
      = processEntries url (es1 ++ es2)
    ∧ ((∀ c ∈ comps, c.cname ≠ veventName) →
        processEntries url (es1 ++ CalendarEntry.parsed comps :: es2)
          = processEntries url (es1 ++ es2))
    ∧ (∀ (a : CalDAVAccount) (s e : Int),
        get_calendar_by_url a url ≠ none →
        account_list_events a url s e (es1 ++ CalendarEntry.malformed :: es2)
          = Except.ok (processEntries url (es1 ++ es2))) := by
  have hmal : processEntries url (es1 ++ CalendarEntry.malformed :: es2)
      = processEntries url (es1 ++ es2) := by
    rw [processEntries_append, processEntries_append]
    simp only [processEntries, entryEvents]
    simp
  refine ⟨hmal, ?_, ?_⟩
  · intro h
    rw [processEntries_append, processEntries_append]
    simp only [processEntries, entryEvents]
    simp [extractEvents_no_vevent url comps h]
  · intro a s e hcal
    rcases Option.ne_none_iff_exists'.mp hcal with ⟨c, hc⟩
    unfold account_list_events
    rw [hc, hmal]

/-- Witness for C7 at concrete entries: the malformed demo entry drops out
of the listing and the listing still succeeds. -/
theorem c7_malformed_entry_skipped_witness :
    account_list_events acctW (("/cal/work/").toList) 0 1
        ([] ++ CalendarEntry.malformed :: [CalendarEntry.parsed [demoComp]])
      = Except.ok
          (processEntries (("/cal/work/").toList)
            ([] ++ [CalendarEntry.parsed [demoComp]])) :=
  (c7_malformed_entry_skipped (("/cal/work/").toList) []
    [CalendarEntry.parsed [demoComp]] []).2.2 acctW 0 1 (by decide)

theorem extractEvents_mem (url : List Char) (comps : List VComponent)
    (info : EventInfo) (h : info ∈ extractEvents url comps) :
    ∃ comp s e, comp ∈ comps ∧ comp.cname = veventName
      ∧ comp.dtstart = some s ∧ comp.dtend = some e
      ∧ info = mkEventInfo url comp s e := by
  induction comps with
  | nil => simp [extractEvents] at h
  | cons comp rest ih =>
    by_cases hc : comp.cname = veventName
    · rcases hs : comp.dtstart with _ | s
      · rw [extractEvents, if_pos hc, hs] at h
        simp at h
      · rcases he : comp.dtend with _ | e
        · rw [extractEvents, if_pos hc, hs, he] at h
          simp at h
        · rw [extractEvents, if_pos hc, hs, he] at h
          rcases List.mem_cons.mp h with h1 | h1
          · exact ⟨comp, s, e, by simp, hc, hs, he, h1⟩
          · rcases ih h1 with ⟨x, s1, e1, hm, hh⟩
            exact ⟨x, s1, e1, List.mem_cons_of_mem _ hm, hh⟩
    · rw [extractEvents, if_neg hc] at h
      rcases ih h with ⟨x, s1, e1, hm, hh⟩
      exact ⟨x, s1, e1, List.mem_cons_of_mem _ hm, hh⟩

/-- C8: every `EventInfo` produced by the `list_events` loop comes from a
VEVENT component with DTSTART and DTEND present, and its timestamps obey
the conversion rule: a plain date is combined with midnight (the date's day
ordinal at 00:00:00, i.e. `d * usecPerDay`), while a value that already
carries a time is kept as-is. -/
theorem c8_date_combined_with_midnight (url : List Char)
    (entries : List CalendarEntry) (info : EventInfo)
    (h : info ∈ processEntries url entries) :
    ∃ comps comp s e, CalendarEntry.parsed comps ∈ entries
      ∧ comp ∈ comps ∧ comp.cname = veventName
      ∧ comp.dtstart = some s ∧ comp.dtend = some e
      ∧ info.start = toTimestamp s ∧ info.stop = toTimestamp e
      ∧ (∀ d, s = ICalTime.date d → info.start = d * usecPerDay)
      ∧ (∀ t, s = ICalTime.dateTime t → info.start = t)
      ∧ (∀ d, e = ICalTime.date d → info.stop = d * usecPerDay)
      ∧ (∀ t, e = ICalTime.dateTime t → info.stop = t) := by
  induction entries with
  | nil => simp [processEntries] at h
  | cons entry rest ih =>
    rw [processEntries] at h
    rcases List.mem_append.mp h with h1 | h1
    · rcases hent : entry with _ | comps
      · rw [hent] at h1
        simp [entryEvents] at h1
      · rw [hent] at h1
        rw [entryEvents] at h1
        rcases extractEvents_mem url comps info h1
          with ⟨comp, s, e, hm, hc, hs, he, hinfo⟩
        refine ⟨comps, comp, s, e, by simp, hm, hc, hs, he, ?_, ?_, ?_, ?_, ?_, ?_⟩
        · rw [hinfo]; rfl
        · rw [hinfo]; rfl
        · intro d hd; rw [hinfo, hd]; rfl
        · intro t ht; rw [hinfo, ht]; rfl
        · intro d hd; rw [hinfo, hd]; rfl
        · intro t ht; rw [hinfo, ht]; rfl
    · rcases ih h1 with ⟨comps, comp, s, e, hm, hh⟩
      exact ⟨comps, comp, s, e, List.mem_cons_of_mem _ hm, hh⟩

/-- Witness for C8 on the demo entries: the date-valued DTSTART is combined
with midnight, the datetime-valued DTEND is kept. -/
theorem c8_date_combined_with_midnight_witness :
    ∃ comps comp s e,
      CalendarEntry.parsed comps ∈ demoEntries
      ∧ comp ∈ comps ∧ comp.cname = veventName
      ∧ comp.dtstart = some s ∧ comp.dtend = some e
      ∧ (mkEventInfo (("/cal/work/").toList) demoComp (ICalTime.date 20419)
          (ICalTime.dateTime 1764234900000000)).start = toTimestamp s
      ∧ (mkEventInfo (("/cal/work/").toList) demoComp (ICalTime.date 20419)
          (ICalTime.dateTime 1764234900000000)).stop = toTimestamp e
      ∧ (∀ d, s = ICalTime.date d →
          (mkEventInfo (("/cal/work/").toList) demoComp (ICalTime.date 20419)
            (ICalTime.dateTime 1764234900000000)).start = d * usecPerDay)
      ∧ (∀ t, s = ICalTime.dateTime t →
          (mkEventInfo (("/cal/work/").toList) demoComp (ICalTime.date 20419)
            (ICalTime.dateTime 1764234900000000)).start = t)
      ∧ (∀ d, e = ICalTime.date d →
          (mkEventInfo (("/cal/work/").toList) demoComp (ICalTime.date 20419)
            (ICalTime.dateTime 1764234900000000)).stop = d * usecPerDay)
      ∧ (∀ t, e = ICalTime.dateTime t →
          (mkEventInfo (("/cal/work/").toList) demoComp (ICalTime.date 20419)
            (ICalTime.dateTime 1764234900000000)).stop = t) :=
  c8_date_combined_with_midnight (("/cal/work/").toList) demoEntries
    (mkEventInfo (("/cal/work/").toList) demoComp (ICalTime.date 20419)
      (ICalTime.dateTime 1764234900000000)) (by decide)

theorem deleteScan_none_iff (uid : List Char)
    (entries : List CalendarEntry) :
    deleteScan uid entries = none
      ↔ ∀ e ∈ entries, entryHasUid uid e = false := by
  induction entries with
  | nil => simp [deleteScan]
  | cons e rest ih =>
    by_cases he : entryHasUid uid e
    · rw [deleteScan, if_pos he]
      simp [he]
    · rw [deleteScan, if_neg he]
      constructor
      · intro h x hx
        rcases List.mem_cons.mp hx with hx | hx
        · subst hx; simpa using he
        · exact ih.mp (by simpa using h) x hx
      · intro h
        have : deleteScan uid rest = none :=
          ih.mpr (fun x hx => h x (List.mem_cons_of_mem _ hx))
        rw [this]
        rfl

theorem deleteScan_first (uid : List Char) (es1 es2 : List CalendarEntry)
    (e : CalendarEntry)
    (hpre : ∀ x ∈ es1, entryHasUid uid x = false)
    (he : entryHasUid uid e = true) :
    deleteScan uid (es1 ++ e :: es2) = some es1.length := by
  induction es1 with
  | nil => simp [deleteScan, he]
  | cons x rest ih =>
    have hx : entryHasUid uid x = false := hpre x (by simp)
    simp only [List.cons_append, deleteScan, List.append_eq]
    rw [if_neg (by simp [hx]), ih (fun y hy => hpre y (List.mem_cons_of_mem _ hy))]
    simp

/-- C9: on a resolvable calendar, `delete_event` scans the entries in
order, deletes the first entry containing a VEVENT with the requested UID
(returning immediately with that entry's index), skips unparseable
entries, and fails with the UID-not-found error exactly when no entry
matches — it never silently succeeds. -/
theorem c9_delete_first_match_or_not_found (a : CalDAVAccount)
    (calendar_url uid : List Char)
    (entries es1 es2 : List CalendarEntry) (e : CalendarEntry)
    (hcal : ∃ c, get_calendar_by_url a calendar_url = some c) :
    ((∀ x ∈ es1, entryHasUid uid x = false) → entryHasUid uid e = true →
      account_delete_event a calendar_url uid (es1 ++ e :: es2)
        = Except.ok es1.length)
    ∧ (account_delete_event a calendar_url uid entries
        = Except.error (CalError.uidNotFound uid)
      ↔ ∀ x ∈ entries, entryHasUid uid x = false)
    ∧ entryHasUid uid CalendarEntry.malformed = false := by
  rcases hcal with ⟨c, hc⟩
  refine ⟨?_, ?_, rfl⟩
  · intro hpre he
    unfold account_delete_event
    rw [hc, deleteScan_first uid es1 es2 e hpre he]
  · unfold account_delete_event
    rw [hc]
    rcases hscan : deleteScan uid entries with _ | i
    · simp only [iff_true_intro ((deleteScan_none_iff uid entries).mp hscan)]
    · constructor
      · intro h
        simp at h
      · intro h
        rw [(deleteScan_none_iff uid entries).mpr h] at hscan
        simp at hscan

/-- Witness for C9: the malformed first entry is skipped and the parsed
entry holding the demo VEVENT (UID `ev-1`) at index 1 is the one deleted;
an unknown UID yields the not-found error. -/
theorem c9_delete_first_match_or_not_found_witness :
    account_delete_event acctW (("/cal/work/").toList) (("ev-1").toList)
        ([CalendarEntry.malformed] ++ CalendarEntry.parsed [demoComp] :: [])
      = Except.ok 1
    ∧ account_delete_event acctW (("/cal/work/").toList) (("nope").toList)
        demoEntries
      = Except.error (CalError.uidNotFound (("nope").toList)) := by
  constructor
  · exact (c9_delete_first_match_or_not_found acctW (("/cal/work/").toList)
      (("ev-1").toList) demoEntries [CalendarEntry.malformed] []
      (CalendarEntry.parsed [demoComp])
      ⟨("/cal/work/").toList, by decide⟩).1 (by decide) (by decide)
  · exact (c9_delete_first_match_or_not_found acctW (("/cal/work/").toList)
      (("nope").toList) demoEntries [] [] CalendarEntry.malformed
      ⟨("/cal/work/").toList, by decide⟩).2.1.mpr (by decide)

theorem find?_of_any {α : Type} (p : α → Bool) (l : List α)
    (h : l.any p = true) : ∃ x, l.find? p = some x := by
  induction l with
  | nil => simp at h
  | cons a rest ih =>
    by_cases ha : p a
    · exact ⟨a, by simp [List.find?_cons, ha]⟩
    · rw [List.any_cons] at h
      have hrest : rest.any p = true := by
        rcases Bool.or_eq_true_iff.mp h with h1 | h1
        · rw [h1] at ha; simp at ha
        · exact h1
      rcases ih hrest with ⟨x, hx⟩
      exact ⟨x, by simp [List.find?_cons, ha, hx]⟩

/-- C10: when the resolver returns an account for a URL and that account is
connected (client and principal set), the account's own lookup by URL also
finds a calendar — both sides use the same normalization over the same
cached list — so the `Calendar not found` branch of `list_events`,
`create_event` and `delete_event` is unreachable after a successful
resolution. -/
theorem c10_resolved_account_finds_calendar (accounts : List CalDAVAccount)
    (a : CalDAVAccount) (url : List Char)
    (hres : find_account_for_calendar accounts url = some a)
    (hconn : a.connected = true) :
    (∃ c, get_calendar_by_url a url = some c)
    ∧ (∀ (s e : Int) (entries : List CalendarEntry),
        account_list_events a url s e entries
          = Except.ok (processEntries url entries))
    ∧ (∀ (summary : List Char) (s e : Int)
        (d loc : Option (List Char)) (uid : List Char),
        account_create_event a url summary s e d loc uid = Except.ok uid)
    ∧ (∀ (uid : List Char) (entries : List CalendarEntry),
        account_delete_event a url uid entries
          ≠ Except.error (CalError.calendarNotFound url)) := by
  have hany : accountMatches (normalize_url url) a = true :=
    (findAccountGo_some (normalize_url url) accounts a hres).2
  rcases find?_of_any (calendarMatches (normalize_url url)) a.calendars hany
    with ⟨c, hc⟩
  have hget : get_calendar_by_url a url = some c.url := by
    unfold get_calendar_by_url
    rw [if_pos hconn, hc]
  refine ⟨⟨c.url, hget⟩, ?_, ?_, ?_⟩
  · intro s e entries
    unfold account_list_events
    rw [hget]
  · intro summary s e d loc uid
    unfold account_create_event
    rw [hget]
  · intro uid entries
    unfold account_delete_event
    rw [hget]
    rcases deleteScan uid entries with _ | i <;> simp

/-- Witness for C10: after resolving `/cal/x` to the connected `acctA`, the
account-level operations do not hit the calendar-not-found branch. -/
theorem c10_resolved_account_finds_calendar_witness :
    account_list_events acctA (("/cal/x").toList) 0 1 [] = Except.ok []
    ∧ account_create_event acctA (("/cal/x").toList) (("S").toList) 0 1
        none none (("uid-1").toList) = Except.ok (("uid-1").toList)
    ∧ account_delete_event acctA (("/cal/x").toList) (("u").toList) []
        ≠ Except.error (CalError.calendarNotFound (("/cal/x").toList)) := by
  have h := c10_resolved_account_finds_calendar [acctA] acctA
    (("/cal/x").toList) (by decide) (by decide)
  exact ⟨h.2.1 0 1 [], h.2.2.1 (("S").toList) 0 1 none none (("uid-1").toList),
    h.2.2.2 (("u").toList) []⟩

/-- C5: when the `end` argument of `list_events` is omitted, the queried
range end is exactly the parsed start plus a 30-day offset
(`timedelta(days=30)`), and that range is the one handed to the account's
event query. -/
theorem c5_default_end_is_start_plus_30_days
    (parse : List Char → Option Int) (start : List Char) (d : Int)
    (hparse : parse (replacedDateArg start) = some d) :
    listEventsRange parse start none = Except.ok (d, d + 30 * usecPerDay)
    ∧ (∀ (accounts : List CalDAVAccount) (a : CalDAVAccount)
        (calendar_url : List Char) (entries : List CalendarEntry),
        find_account_for_calendar accounts calendar_url = some a →
        list_events_tool parse accounts calendar_url start none entries
          = match account_list_events a calendar_url d (d + 30 * usecPerDay)
                entries with
            | Except.error e => Except.error (ToolError.calError e)
            | Except.ok evs => Except.ok evs) := by
  have hrange : listEventsRange parse start none
      = Except.ok (d, d + 30 * usecPerDay) := by
    unfold listEventsRange
    rw [hparse]
  refine ⟨hrange, ?_⟩
  intro accounts a calendar_url entries hacc
  unfold list_events_tool
  rw [hacc, hrange]

/-- Witness for C5 at a concrete start string and parser. -/
theorem c5_default_end_is_start_plus_30_days_witness :
    listEventsRange demoParse (("2025-11-27T09:00:00Z").toList) none
      = Except.ok (1764234000000000, 1764234000000000 + 30 * usecPerDay) :=
  (c5_default_end_is_start_plus_30_days demoParse
    (("2025-11-27T09:00:00Z").toList) 1764234000000000 (by decide)).1

theorem replaceChar_not_mem (old : Char) (new : List Char)
    (l : List Char) (h : old ∉ l) : replaceChar old new l = l := by
  induction l with
  | nil => rfl
  | cons c rest ih =>
    have hc : ¬ c = old := by
      intro hh
      exact h (by simp [hh])
    rw [replaceChar, if_neg hc, ih (fun hm => h (List.mem_cons_of_mem _ hm))]

theorem replaceChar_append (old : Char) (new : List Char)
    (l1 l2 : List Char) :
    replaceChar old new (l1 ++ l2)
      = replaceChar old new l1 ++ replaceChar old new l2 := by
  induction l1 with
  | nil => rfl
  | cons c rest ih =>
    by_cases hc : c = old
    · simp only [List.cons_append, replaceChar, if_pos hc, List.append_eq,
        ih, List.append_assoc]
    · simp only [List.cons_append, replaceChar, if_neg hc, List.append_eq,
        ih]

/-- C6: in the date arguments of `list_events` and `create_event`, a
trailing `Z` is turned into the UTC offset `+00:00` before the string is
handed to the platform parser, and a string without a `Z` is handed over
unchanged. -/
theorem c6_trailing_z_is_utc_shorthand (s t : List Char) :
    (s = t ++ ['Z'] → 'Z' ∉ t → replacedDateArg s = t ++ plusUtcOffset)
    ∧ ('Z' ∉ s → replacedDateArg s = s) := by
  constructor
  · intro hs hz
    subst hs
    unfold replacedDateArg
    rw [replaceChar_append, replaceChar_not_mem _ _ _ hz]
    simp [replaceChar]
  · intro hz
    exact replaceChar_not_mem _ _ s hz

/-- Witness for C6 at a concrete date string with a trailing `Z`. -/
theorem c6_trailing_z_is_utc_shorthand_witness :
    replacedDateArg (("2025-11-27T09:00:00Z").toList)
      = ("2025-11-27T09:00:00").toList ++ plusUtcOffset :=
  (c6_trailing_z_is_utc_shorthand (("2025-11-27T09:00:00Z").toList)
    (("2025-11-27T09:00:00").toList)).1 (by decide) (by decide)

theorem joinComma_mem (us : List (List Char)) (u : List Char)
    (h : u ∈ us) : ∃ l r, joinComma us = l ++ u ++ r := by
  induction us with
  | nil => simp at h
  | cons v rest ih =>
    rcases rest with _ | ⟨w, rest2⟩
    · have hv : u = v := by simpa using h
      subst hv
      exact ⟨[], [], by simp [joinComma]⟩
    · rcases List.mem_cons.mp h with h1 | h1
      · subst h1
        exact ⟨[], (", ").toList ++ joinComma (w :: rest2),
          by simp [joinComma, List.append_assoc]⟩
      · rcases ih h1 with ⟨l, r, hl⟩
        exact ⟨v ++ (", ").toList ++ l, r,
          by simp [joinComma, hl, List.append_assoc]⟩

/-- C3 counterexample: on an unresolvable calendar URL, `create_event`'s
error message does not list the known calendar URLs — the known URL
`/cal/work/` of the only configured account does not occur in it — so the
claim that every tool's not-found message lists the known calendar URLs is
false on the code. -/
theorem c3_counterexample_create_message_lacks_urls :
    create_event_tool demoParse [acctW] (("/nope").toList)
        (("Standup").toList) (("2025-11-27T09:00:00").toList)
        (("2025-11-28T10:00:00").toList) none none (("uid-1").toList)
      = Except.error
          (ToolError.valueError (noAccountMsgPlain (("/nope").toList)))
    ∧ (("/cal/work/").toList) ∈ allCalendarUrls [acctW]
    ∧ ¬ ((("/cal/work/").toList)
        <:+: (noAccountMsgPlain (("/nope").toList))) := by
  decide

/-- C3 amended: on an unresolvable calendar URL every tool fails with a
not-found `ValueError`; `list_events`'s message lists the known calendar
URLs of all configured accounts, while `create_event` and `delete_event`
report only the unresolved URL. -/
theorem c3_amended_error_messages (parse : List Char → Option Int)
    (accounts : List CalDAVAccount) (calendar_url : List Char)
    (h : find_account_for_calendar accounts calendar_url = none) :
    (∀ (start : List Char) (endArg : Option (List Char))
        (entries : List CalendarEntry),
      list_events_tool parse accounts calendar_url start endArg entries
        = Except.error (ToolError.valueError
            (noAccountMsgListEvents calendar_url accounts)))
    ∧ (∀ u ∈ allCalendarUrls accounts, ∃ l r,
        noAccountMsgListEvents calendar_url accounts = l ++ u ++ r)
    ∧ (∀ (summary start stop : List Char)
        (d loc : Option (List Char)) (uid : List Char),
      create_event_tool parse accounts calendar_url summary start stop
          d loc uid
        = Except.error
            (ToolError.valueError (noAccountMsgPlain calendar_url)))
    ∧ (∀ (uid : List Char) (entries : List CalendarEntry),
      delete_event_tool accounts calendar_url uid entries
        = Except.error
            (ToolError.valueError (noAccountMsgPlain calendar_url))) := by
  refine ⟨?_, ?_, ?_, ?_⟩
  · intro start endArg entries
    unfold list_events_tool
    rw [h]
  · intro u hu
    rcases joinComma_mem (allCalendarUrls accounts) u hu with ⟨l, r, hl⟩
    exact ⟨("No account found for calendar URL: ").toList ++ calendar_url
        ++ (". Available URLs: ").toList ++ l, r,
      by simp [noAccountMsgListEvents, hl, List.append_assoc]⟩
  · intro summary start stop d loc uid
    unfold create_event_tool
    rw [h]
  · intro uid entries
    unfold delete_event_tool
    rw [h]

/-- Witness for the amended C3 at concrete inputs. -/
theorem c3_amended_error_messages_witness :
    list_events_tool demoParse [acctW] (("/nope").toList)
        (("2025-11-27T09:00:00").toList) none []
      = Except.error (ToolError.valueError
          (noAccountMsgListEvents (("/nope").toList) [acctW]))
    ∧ delete_event_tool [acctW] (("/nope").toList) (("u").toList) []
      = Except.error
          (ToolError.valueError (noAccountMsgPlain (("/nope").toList))) := by
  have h := c3_amended_error_messages demoParse [acctW] (("/nope").toList)
    (by decide)
  exact ⟨h.1 (("2025-11-27T09:00:00").toList) none [],
    h.2.2.2 (("u").toList) []⟩
